import Mathlib

/-!
Verification of the BlackBox-Staking confidential ledger
(src/contracts/METHStaking.sol) against its natural-language
specification.

The contract is shallowly embedded: encrypted 64-bit values (euint64
handles) are modelled as a plaintext natural number together with an
initialized flag and the access-control list attached to the handle;
contract storage is explicit state passing.  The FHE coprocessor calls,
the OpenZeppelin FHESafeMath library and the ERC7984 custody token are
external dependencies that are not part of this repository; they are
modelled from the specification where their behaviour decides a claim
(each such definition carries a doc comment saying so).
-/

namespace METHStaking

/-- An euint64 handle: an encrypted 64-bit unsigned value.  We record the
plaintext it encrypts (val), whether the handle is initialized (a
never-assigned storage slot is distinguishable from an encrypted zero),
and the access-control list of principals granted rights on the handle.
Addresses and principals are modelled as natural numbers, 0 being the
zero address. -/
structure Euint64 where
  isInit : Bool
  val : Nat
  acl : List Nat
deriving DecidableEq, Repr

/-- The never-assigned (default) euint64 handle; it decrypts to 0. -/
def Euint64.uninit : Euint64 := ⟨false, 0, []⟩

/-- Decryption by a principal holding a decrypt capability. -/
def decryptVal (v : Euint64) : Nat := v.val

/-- Tags of the homomorphic operations and external calls a ledger
function performs, in program order.  The tag sequence is the observable
shape of the encrypted trace: it records which operations run but not
the encrypted operand values. -/
inductive FHEOp where
  | addT
  | subT
  | cmpT
  | selectT
  | constT
  | allowT (p : Nat)
  | allowTransientT (p : Nat)
  | extCallT
deriving DecidableEq, Repr

/-- Modelled from the spec (the FHE primitive library is an external
dependency): FHE.asEuint64 trivially encrypts a cleartext constant.  The
fresh handle starts with no grants. -/
def FHE.asEuint64 (n : Nat) : Euint64 := ⟨true, n % 2^64, []⟩

/-- Modelled from the spec (external encryption-input verifier boundary):
FHE.fromExternal materializes a submitted ciphertext-plus-proof as a
fresh initialized handle. -/
def FHE.fromExternal (n : Nat) : Euint64 := ⟨true, n % 2^64, []⟩

/-- Modelled from the spec (opaque primitive library): homomorphic
conditional select between two encrypted operands.  Always yields an
initialized fresh handle with no grants. -/
def FHE.select (c : Bool) (a b : Euint64) : Euint64 :=
  ⟨true, if c then a.val else b.val, []⟩

/-- Modelled from the spec (AccessController boundary): grant principal p
rights on the handle.  Functionally rendered: the granted handle is the
same value with p added to its access list. -/
def FHE.allow (v : Euint64) (p : Nat) : Euint64 := ⟨v.isInit, v.val, p :: v.acl⟩

/-- Modelled from the spec (AccessController boundary): the cleartext
check whether principal p holds a grant on the handle. -/
def FHE.isAllowed (v : Euint64) (p : Nat) : Bool := v.acl.contains p

/-- Modelled from the spec, section 4.1 (FHESafeMath.tryIncrease is an
external OpenZeppelin library, not part of this repository): computes
current + delta; ok is the encrypted predicate that no unsigned-64
overflow occurred; the result is the sum when ok and current unchanged
otherwise, selected homomorphically. -/
def FHESafeMath.tryIncrease (current delta : Euint64) : Bool × Euint64 :=
  let ok := current.val + delta.val < 2^64
  (ok, ⟨true, if ok then current.val + delta.val else current.val, []⟩)

/-- Modelled from the spec, section 4.1 (FHESafeMath.tryDecrease is an
external OpenZeppelin library, not part of this repository): computes
current - delta; ok is the encrypted predicate delta ≤ current; the
result is the difference when ok and current unchanged otherwise,
selected homomorphically. -/
def FHESafeMath.tryDecrease (current delta : Euint64) : Bool × Euint64 :=
  let ok := delta.val ≤ current.val
  (ok, ⟨true, if ok then current.val - delta.val else current.val, []⟩)

/-- The homomorphic operations performed by tryIncrease: an addition, a
comparison and a conditional select, independent of the operand values. -/
def tryIncreaseTrace : List FHEOp := [.addT, .cmpT, .selectT]

/-- The homomorphic operations performed by tryDecrease: a subtraction, a
comparison and a conditional select, independent of the operand values. -/
def tryDecreaseTrace : List FHEOp := [.subT, .cmpT, .selectT]

/-- The events emitted by METHStaking.sol: Staked and Unstaked, each
carrying the staker address and two ciphertext fields. -/
inductive EventRec where
  | Staked (staker : Nat) (amount balanceAfter : Euint64)
  | Unstaked (staker : Nat) (amount balanceAfter : Euint64)
deriving DecidableEq, Repr

/-- The immutable deployment configuration: the address of the staking
contract itself and the immutable methToken custody-collaborator
address fixed by the constructor. -/
structure Config where
  self : Nat
  methToken : Nat
deriving DecidableEq, Repr

/-- The mutable system state: the private per-staker balance mapping and
aggregate total of METHStaking.sol, the plaintext custody balances held
by the external token, and the emitted event log (newest first). -/
structure SysState where
  stakedBalances : Nat → Euint64
  totalStaked : Euint64
  custody : Nat → Nat
  events : List EventRec

/-- The custody collaborator behind the IERC7984 interface: an arbitrary
implementation of confidentialTransferFrom (operator pull) and
confidentialTransfer (push), acting on the custody balance map and
returning the actually transferred encrypted amount.  METHStaking only
ever talks to it through this interface. -/
structure TokenModel where
  transferFrom : (Nat → Nat) → Nat → Nat → Euint64 → Euint64 × (Nat → Nat)
  transfer : (Nat → Nat) → Nat → Nat → Euint64 → Euint64 × (Nat → Nat)

/-- Modelled from the spec, sections 4.4 and 6 (the ERC7984 token
implementation is an external OpenZeppelin dependency): a confidential
transfer moves the requested amount when the sender custody balance
covers it and zero otherwise (errorless sufficiency enforcement, never a
partial amount), and returns the actually moved amount as a fresh
initialized handle.  Operator authorization is assumed granted, as the
repository tests set it up once before staking. -/
def erc7984Move (bal : Nat → Nat) (src dst : Nat) (amount : Euint64) :
    Euint64 × (Nat → Nat) :=
  let t := if amount.val ≤ bal src then amount.val else 0
  let bal1 := Function.update bal src (bal src - t)
  (⟨true, t, []⟩, Function.update bal1 dst (bal1 dst + t))

/-- The ERC7984 instance of the custody collaborator interface. -/
def erc7984Model : TokenModel :=
  ⟨fun bal src dst a => erc7984Move bal src dst a,
   fun bal src dst a => erc7984Move bal src dst a⟩

/-- METHStaking errors: InvalidTokenAddress (constructor) and
UnauthorizedEncryptedAmount (handle-accepting entry points). -/
inductive StakingError where
  | invalidTokenAddress
  | unauthorizedEncryptedAmount (caller : Nat)
deriving DecidableEq, Repr

/-- The METHStaking constructor: reverts with InvalidTokenAddress on the
zero token address, otherwise fixes the token address in the immutable
configuration.  Immutability is rendered by Config being a pure value
that every operation below takes as a read-only parameter. -/
def constructorFn (selfAddr tokenAddress : Nat) : Except StakingError Config :=
  if tokenAddress = 0 then Except.error StakingError.invalidTokenAddress
  else Except.ok ⟨selfAddr, tokenAddress⟩

/-- The token() view of METHStaking.sol. -/
def token (cfg : Config) : Nat := cfg.methToken

/-- The stakedBalanceOf(account) view of METHStaking.sol. -/
def stakedBalanceOf (st : SysState) (account : Nat) : Euint64 :=
  st.stakedBalances account

/-- The confidentialTotalStaked() view of METHStaking.sol. -/
def confidentialTotalStaked (st : SysState) : Euint64 := st.totalStaked

/-- METHStaking._increaseTotal: safe-increase the aggregate total by the
amount, grant the new total to the contract and, when the actor is not
the zero address, to the actor, then store it.  Also returns the tag
trace of the homomorphic operations performed. -/
def _increaseTotal (cfg : Config) (st : SysState) (amount : Euint64)
    (actor : Nat) : SysState × List FHEOp :=
  let updatedTotal := FHE.allow (FHESafeMath.tryIncrease st.totalStaked amount).2 cfg.self
  let updatedTotal2 := if actor ≠ 0 then FHE.allow updatedTotal actor else updatedTotal
  ({ st with totalStaked := updatedTotal2 },
   tryIncreaseTrace ++ [FHEOp.allowT cfg.self]
     ++ (if actor ≠ 0 then [FHEOp.allowT actor] else []))

/-- METHStaking._decreaseTotal: safe-decrease the aggregate total by the
amount, grant the new total to the contract and, when the actor is not
the zero address, to the actor, then store it. -/
def _decreaseTotal (cfg : Config) (st : SysState) (amount : Euint64)
    (actor : Nat) : SysState × List FHEOp :=
  let updatedTotal := FHE.allow (FHESafeMath.tryDecrease st.totalStaked amount).2 cfg.self
  let updatedTotal2 := if actor ≠ 0 then FHE.allow updatedTotal actor else updatedTotal
  ({ st with totalStaked := updatedTotal2 },
   tryDecreaseTrace ++ [FHEOp.allowT cfg.self]
     ++ (if actor ≠ 0 then [FHEOp.allowT actor] else []))

/-- METHStaking._applyIncrease: early-return the amount untouched when it
is an uninitialized handle; otherwise safe-increase the staker balance
(the ok flag is dropped: the select inside tryIncrease already realizes
the leave-unchanged policy), grant the new balance to the contract and
the staker, store it, increase the total, emit Staked and return the
amount. -/
def _applyIncrease (cfg : Config) (st : SysState) (staker : Nat)
    (amount : Euint64) : Euint64 × SysState × List FHEOp :=
  if amount.isInit = false then (amount, st, [])
  else
    let currentStake := st.stakedBalances staker
    let updatedStake :=
      FHE.allow (FHE.allow (FHESafeMath.tryIncrease currentStake amount).2 cfg.self) staker
    let st1 := { st with
      stakedBalances := Function.update st.stakedBalances staker updatedStake }
    let itr := _increaseTotal cfg st1 amount staker
    (amount,
     { itr.1 with events := EventRec.Staked staker amount updatedStake :: itr.1.events },
     tryIncreaseTrace ++ [FHEOp.allowT cfg.self, FHEOp.allowT staker] ++ itr.2)

/-- METHStaking._stake: transiently authorize the token on an initialized
amount, pull the amount via confidentialTransferFrom, and credit the
actually transferred value through _applyIncrease, returning it. -/
def _stake (tm : TokenModel) (cfg : Config) (st : SysState) (staker : Nat)
    (amount : Euint64) : Euint64 × SysState × List FHEOp :=
  let pre : List FHEOp :=
    if amount.isInit then [FHEOp.allowTransientT cfg.methToken] else []
  let tf := tm.transferFrom st.custody staker cfg.self amount
  let app := _applyIncrease cfg { st with custody := tf.2 } staker tf.1
  (app.1, app.2.1, pre ++ [FHEOp.extCallT] ++ app.2.2)

/-- METHStaking._unstake: safe-decrease the staker balance, select the
appliable amount homomorphically (the requested amount when the decrease
was safe, else an encrypted zero), grant and store the new balance,
decrease the total by the appliable amount, transiently authorize the
token on it, push it back via confidentialTransfer and emit Unstaked
with the transferred amount and the new balance. -/
def _unstake (tm : TokenModel) (cfg : Config) (st : SysState) (staker : Nat)
    (amount : Euint64) : Euint64 × SysState × List FHEOp :=
  let currentStake := st.stakedBalances staker
  let td := FHESafeMath.tryDecrease currentStake amount
  let appliedAmount := FHE.select td.1 amount (FHE.asEuint64 0)
  let updatedStake := FHE.allow (FHE.allow td.2 cfg.self) staker
  let st1 := { st with
    stakedBalances := Function.update st.stakedBalances staker updatedStake }
  let dtr := _decreaseTotal cfg st1 appliedAmount staker
  let pre : List FHEOp :=
    if appliedAmount.isInit then [FHEOp.allowTransientT cfg.methToken] else []
  let tf := tm.transfer dtr.1.custody cfg.self staker appliedAmount
  let st2 := { dtr.1 with custody := tf.2 }
  (tf.1,
   { st2 with events := EventRec.Unstaked staker tf.1 updatedStake :: st2.events },
   tryDecreaseTrace
     ++ [FHEOp.constT, FHEOp.selectT, FHEOp.allowT cfg.self, FHEOp.allowT staker]
     ++ dtr.2 ++ pre ++ [FHEOp.extCallT])

/-- The stake(externalEuint64, inputProof) entry point: materialize the
submitted ciphertext through the external verifier and stake it. -/
def stakeWithProof (tm : TokenModel) (cfg : Config) (st : SysState)
    (caller : Nat) (n : Nat) : Euint64 × SysState × List FHEOp :=
  _stake tm cfg st caller (FHE.fromExternal n)

/-- The unstake(externalEuint64, inputProof) entry point. -/
def unstakeWithProof (tm : TokenModel) (cfg : Config) (st : SysState)
    (caller : Nat) (n : Nat) : Euint64 × SysState × List FHEOp :=
  _unstake tm cfg st caller (FHE.fromExternal n)

/-- The stake(euint64) entry point: reject a pre-existing handle the
caller holds no grant on, before touching any state.  A revert is
rendered as an error result carrying no post-state: the EVM discards all
writes of a reverted call. -/
def stakeHandle (tm : TokenModel) (cfg : Config) (st : SysState)
    (caller : Nat) (amount : Euint64) :
    Except StakingError (Euint64 × SysState × List FHEOp) :=
  if FHE.isAllowed amount caller = false then
    Except.error (StakingError.unauthorizedEncryptedAmount caller)
  else Except.ok (_stake tm cfg st caller amount)

/-- The unstake(euint64) entry point, with the same authorization gate. -/
def unstakeHandle (tm : TokenModel) (cfg : Config) (st : SysState)
    (caller : Nat) (amount : Euint64) :
    Except StakingError (Euint64 × SysState × List FHEOp) :=
  if FHE.isAllowed amount caller = false then
    Except.error (StakingError.unauthorizedEncryptedAmount caller)
  else Except.ok (_unstake tm cfg st caller amount)

/-- One external call against the ledger: a stake or an unstake by a
staker, with the cleartext the submitted ciphertext proves. -/
inductive Call where
  | stakeC (staker amount : Nat)
  | unstakeC (staker amount : Nat)
deriving DecidableEq, Repr

/-- The caller of a call. -/
def Call.caller : Call → Nat
  | .stakeC s _ => s
  | .unstakeC s _ => s

/-- Execute one call (through the proof-carrying entry points). -/
def execCall (tm : TokenModel) (cfg : Config) (st : SysState) : Call → SysState
  | .stakeC s n => (stakeWithProof tm cfg st s n).2.1
  | .unstakeC s n => (unstakeWithProof tm cfg st s n).2.1

/-- Execute a finite sequence of calls in order. -/
def execCalls (tm : TokenModel) (cfg : Config) (st : SysState) :
    List Call → SysState
  | [] => st
  | c :: cs => execCalls tm cfg (execCall tm cfg st c) cs

/-- The freshly constructed ledger state: every staker balance and the
total are the never-assigned handle, no events, and the custody token in
an arbitrary starting state. -/
def initState (custody0 : Nat → Nat) : SysState :=
  ⟨fun _ => Euint64.uninit, Euint64.uninit, custody0, []⟩

/-- The accounts that ever staked during a call sequence. -/
def stakersOf : List Call → Finset Nat
  | [] => ∅
  | .stakeC s _ :: cs => insert s (stakersOf cs)
  | .unstakeC _ _ :: cs => stakersOf cs

/-- All callers of a call sequence. -/
def callersOf : List Call → Finset Nat
  | [] => ∅
  | c :: cs => insert c.caller (callersOf cs)

/-! Concrete sample data used by the witness theorems: the contract is
deployed at address 1 with the token at address 2; account 7 holds a
staked balance of 5, the total is 5, the contract custodies 5 tokens and
account 7 custodies 10 tokens. -/

/-- Sample deployment configuration. -/
def cfgW : Config := ⟨1, 2⟩

/-- Sample balance map: account 7 holds an initialized balance of 5. -/
def balW : Nat → Euint64 :=
  Function.update (fun _ => Euint64.uninit) 7 ⟨true, 5, [7, 1]⟩

/-- Sample custody map: the contract holds 5, account 7 holds 10. -/
def custW : Nat → Nat :=
  Function.update (Function.update (fun _ => 0) 7 10) 1 5

/-- Sample state combining the maps above. -/
def stW : SysState := ⟨balW, ⟨true, 5, [1]⟩, custW, []⟩

/-- Claim C9: constructing the ledger with the zero token address fails
synchronously with InvalidTokenAddress, before any ledger state exists;
any nonzero address succeeds and fixes that address permanently as the
token (the resulting configuration is immutable: every operation of the
embedding takes it as a read-only parameter and none produces a new
one). -/
theorem constructor_zero_address_gate (selfAddr tokenAddress : Nat) :
    (tokenAddress = 0 →
      constructorFn selfAddr tokenAddress
        = Except.error StakingError.invalidTokenAddress)
    ∧ (tokenAddress ≠ 0 →
      constructorFn selfAddr tokenAddress = Except.ok ⟨selfAddr, tokenAddress⟩
        ∧ token ⟨selfAddr, tokenAddress⟩ = tokenAddress) := by
  refine ⟨fun h => ?_, fun h => ⟨?_, rfl⟩⟩ <;> simp [constructorFn, h]

/-- Witness for C9 at token addresses 0 and 2. -/
theorem constructor_zero_address_gate_witness :
    constructorFn 1 0 = Except.error StakingError.invalidTokenAddress
    ∧ constructorFn 1 2 = Except.ok ⟨1, 2⟩ :=
  ⟨(constructor_zero_address_gate 1 0).1 rfl,
   ((constructor_zero_address_gate 1 2).2 (by decide)).1⟩

/-- Claim C3: presenting a pre-existing encrypted handle the caller holds
no grant on makes both handle-accepting overloads fail with
UnauthorizedEncryptedAmount(caller).  The error result carries no
post-state: a reverted call mutates no ledger state, which is exactly
how the embedding renders the revert. -/
theorem unauthorized_handle_rejected (tm : TokenModel) (cfg : Config)
    (st : SysState) (caller : Nat) (amount : Euint64)
    (h : FHE.isAllowed amount caller = false) :
    stakeHandle tm cfg st caller amount
        = Except.error (StakingError.unauthorizedEncryptedAmount caller)
    ∧ unstakeHandle tm cfg st caller amount
        = Except.error (StakingError.unauthorizedEncryptedAmount caller) := by
  constructor <;> simp [stakeHandle, unstakeHandle, h]

/-- Witness for C3: caller 9 presents a handle granted only to 7 and 1. -/
theorem unauthorized_handle_rejected_witness :
    stakeHandle erc7984Model cfgW stW 9 ⟨true, 3, [7, 1]⟩
        = Except.error (StakingError.unauthorizedEncryptedAmount 9)
    ∧ unstakeHandle erc7984Model cfgW stW 9 ⟨true, 3, [7, 1]⟩
        = Except.error (StakingError.unauthorizedEncryptedAmount 9) :=
  unauthorized_handle_rejected erc7984Model cfgW stW 9 ⟨true, 3, [7, 1]⟩ (by decide)

/-- Claim C2: unstaking an encrypted amount whose plaintext strictly
exceeds the staked balance leaves the decrypted balance, the decrypted
total and the staker custody balance unchanged, and transfers an
encrypted zero back (the appliable amount selected homomorphically is
zero). -/
theorem unstake_above_stake_noop (cfg : Config) (st : SysState)
    (staker : Nat) (amount : Euint64)
    (h : decryptVal (stakedBalanceOf st staker) < decryptVal amount) :
    let res := _unstake erc7984Model cfg st staker amount
    decryptVal (stakedBalanceOf res.2.1 staker)
        = decryptVal (stakedBalanceOf st staker)
    ∧ decryptVal (confidentialTotalStaked res.2.1)
        = decryptVal (confidentialTotalStaked st)
    ∧ res.2.1.custody staker = st.custody staker
    ∧ decryptVal res.1 = 0 := by
  have hnot : ¬ (amount.val ≤ (st.stakedBalances staker).val) := by
    simpa [decryptVal, stakedBalanceOf] using Nat.not_le.mpr h
  simp only [_unstake, _decreaseTotal, erc7984Model, erc7984Move,
    FHESafeMath.tryDecrease, FHE.select, FHE.asEuint64, FHE.allow,
    decryptVal, stakedBalanceOf, confidentialTotalStaked, hnot]
  refine ⟨by simp, ?_, ?_, by simp⟩
  · split <;> simp
  · by_cases hss : staker = cfg.self <;>
      simp [Function.update_apply, hss]

/-- Witness for C2: account 7 holds 5 and requests 8; balance, custody
and the transferred amount are checked concretely. -/
theorem unstake_above_stake_noop_witness :
    decryptVal (stakedBalanceOf
        (_unstake erc7984Model cfgW stW 7 ⟨true, 8, [7, 1]⟩).2.1 7) = 5
    ∧ decryptVal (confidentialTotalStaked
        (_unstake erc7984Model cfgW stW 7 ⟨true, 8, [7, 1]⟩).2.1) = 5
    ∧ (_unstake erc7984Model cfgW stW 7 ⟨true, 8, [7, 1]⟩).2.1.custody 7 = 10
    ∧ decryptVal (_unstake erc7984Model cfgW stW 7 ⟨true, 8, [7, 1]⟩).1 = 0 := by
  have h := unstake_above_stake_noop cfgW stW 7 ⟨true, 8, [7, 1]⟩ (by decide)
  exact ⟨h.1.trans (by decide), h.2.1.trans (by decide),
    h.2.2.1.trans (by decide), h.2.2.2⟩

/-- A custody collaborator that enforces an upstream cap of 3 units per
transfer: it legitimately transfers less than requested.  Used to
witness that the ledger credits only the transferred value. -/
def cappedModel : TokenModel :=
  ⟨fun bal _ _ a => (⟨true, min a.val 3, []⟩, bal),
   fun bal _ _ a => (⟨true, min a.val 3, []⟩, bal)⟩

/-- Claim C7: for every custody collaborator behaviour, stake credits the
account and the aggregate total with the value the collaborator actually
transferred, never the requested amount, and returns the transferred
handle; in particular when the collaborator transfers less than
requested, only the transferred value is credited. -/
theorem stake_credits_transferred (tm : TokenModel) (cfg : Config)
    (st : SysState) (staker : Nat) (amount : Euint64)
    (hinit : (tm.transferFrom st.custody staker cfg.self amount).1.isInit = true) :
    let t := (tm.transferFrom st.custody staker cfg.self amount).1
    let res := _stake tm cfg st staker amount
    res.1 = t
    ∧ decryptVal (stakedBalanceOf res.2.1 staker)
        = (if decryptVal (stakedBalanceOf st staker) + decryptVal t < 2^64
           then decryptVal (stakedBalanceOf st staker) + decryptVal t
           else decryptVal (stakedBalanceOf st staker))
    ∧ decryptVal (confidentialTotalStaked res.2.1)
        = (if decryptVal (confidentialTotalStaked st) + decryptVal t < 2^64
           then decryptVal (confidentialTotalStaked st) + decryptVal t
           else decryptVal (confidentialTotalStaked st)) := by
  simp only [_stake, _applyIncrease, _increaseTotal, FHESafeMath.tryIncrease,
    FHE.allow, decryptVal, stakedBalanceOf, confidentialTotalStaked, hinit]
  rw [if_neg (show ¬ (true = false) by simp)]
  refine ⟨rfl, ?_, ?_⟩
  · simp only [Function.update_same]
  · simp only [apply_ite Euint64.val, ite_self]

/-- Witness for C7: the capped collaborator transfers 3 of the requested
7, and exactly 3 is credited to balance and total. -/
theorem stake_credits_transferred_witness :
    (_stake cappedModel cfgW stW 7 ⟨true, 7, [7, 1]⟩).1.val = 3
    ∧ decryptVal (stakedBalanceOf
        (_stake cappedModel cfgW stW 7 ⟨true, 7, [7, 1]⟩).2.1 7) = 8
    ∧ decryptVal (confidentialTotalStaked
        (_stake cappedModel cfgW stW 7 ⟨true, 7, [7, 1]⟩).2.1) = 8 := by
  have h := stake_credits_transferred cappedModel cfgW stW 7 ⟨true, 7, [7, 1]⟩ rfl
  exact ⟨by rw [h.1]; decide, h.2.1.trans (by decide), h.2.2.trans (by decide)⟩

/-- A custody collaborator whose pull transfer yields an uninitialized
handle while leaving custody untouched; its push behaves like ERC7984.
Used to witness the stake early-exit. -/
def uninitModel : TokenModel :=
  ⟨fun bal _ _ _ => (Euint64.uninit, bal),
   fun bal src dst a => erc7984Move bal src dst a⟩

/-- Claim C10: when the collaborator returns an uninitialized transferred
handle, stake is a complete ledger no-op: the balance mapping, the
aggregate total and the event log are untouched and the uninitialized
handle is returned unchanged.  Unstake has no such early exit: it always
stores a fresh initialized balance handle for the account and emits
exactly one Unstaked event. -/
theorem uninit_transfer_stake_noop (tm : TokenModel) (cfg : Config)
    (st : SysState) (staker : Nat) (amount : Euint64) :
    ((tm.transferFrom st.custody staker cfg.self amount).1.isInit = false →
      let res := _stake tm cfg st staker amount
      res.1 = (tm.transferFrom st.custody staker cfg.self amount).1
      ∧ res.2.1.stakedBalances = st.stakedBalances
      ∧ res.2.1.totalStaked = st.totalStaked
      ∧ res.2.1.events = st.events)
    ∧ (let ru := _unstake tm cfg st staker amount
       (ru.2.1.stakedBalances staker).isInit = true
       ∧ ru.2.1.events
           = EventRec.Unstaked staker ru.1 (ru.2.1.stakedBalances staker)
               :: st.events) := by
  constructor
  · intro h
    simp [_stake, _applyIncrease, h]
  · constructor
    · simp [_unstake, _decreaseTotal, FHESafeMath.tryDecrease, FHE.allow]
    · simp [_unstake, _decreaseTotal, FHE.allow]

/-- Witness for C10: the uninit collaborator makes stake a no-op on the
sample state, and unstake still stores a handle and emits an event. -/
theorem uninit_transfer_stake_noop_witness :
    ((_stake uninitModel cfgW stW 7 ⟨true, 4, [7, 1]⟩).2.1.stakedBalances
        = stW.stakedBalances
      ∧ (_stake uninitModel cfgW stW 7 ⟨true, 4, [7, 1]⟩).2.1.events = stW.events)
    ∧ ((_unstake uninitModel cfgW stW 7 ⟨true, 4, [7, 1]⟩).2.1.stakedBalances 7).isInit
        = true := by
  have h := uninit_transfer_stake_noop uninitModel cfgW stW 7 ⟨true, 4, [7, 1]⟩
  exact ⟨⟨(h.1 rfl).2.1, (h.1 rfl).2.2.2⟩, h.2.1⟩

/-- Claim C8: after a stake and after an unstake by any nonzero acting
account, the newly stored encrypted balance of that account and the
newly stored aggregate total each carry an access grant for the ledger
contract itself and one for the acting account, so no stored ciphertext
is left without the grants needed for future operation and decryption.
The zero address is excluded because it can never be a message sender. -/
theorem stored_handles_granted (cfg : Config) (st : SysState)
    (staker : Nat) (amount : Euint64) (h : staker ≠ 0) :
    (let rs := _stake erc7984Model cfg st staker amount
     cfg.self ∈ (rs.2.1.stakedBalances staker).acl
     ∧ staker ∈ (rs.2.1.stakedBalances staker).acl
     ∧ cfg.self ∈ rs.2.1.totalStaked.acl
     ∧ staker ∈ rs.2.1.totalStaked.acl)
    ∧ (let ru := _unstake erc7984Model cfg st staker amount
       cfg.self ∈ (ru.2.1.stakedBalances staker).acl
       ∧ staker ∈ (ru.2.1.stakedBalances staker).acl
       ∧ cfg.self ∈ ru.2.1.totalStaked.acl
       ∧ staker ∈ ru.2.1.totalStaked.acl) := by
  constructor
  · simp [_stake, _applyIncrease, _increaseTotal, erc7984Model, erc7984Move,
      FHESafeMath.tryIncrease, FHE.allow, h]
  · simp [_unstake, _decreaseTotal, FHESafeMath.tryDecrease, FHE.select,
      FHE.asEuint64, FHE.allow, h]

/-- Witness for C8 at the sample state with acting account 7. -/
theorem stored_handles_granted_witness :
    (1 ∈ ((_stake erc7984Model cfgW stW 7 ⟨true, 4, [7, 1]⟩).2.1.stakedBalances 7).acl
      ∧ 7 ∈ (_stake erc7984Model cfgW stW 7 ⟨true, 4, [7, 1]⟩).2.1.totalStaked.acl)
    ∧ (1 ∈ ((_unstake erc7984Model cfgW stW 7 ⟨true, 4, [7, 1]⟩).2.1.stakedBalances 7).acl
      ∧ 7 ∈ (_unstake erc7984Model cfgW stW 7 ⟨true, 4, [7, 1]⟩).2.1.totalStaked.acl) := by
  have h := stored_handles_granted cfgW stW 7 ⟨true, 4, [7, 1]⟩ (by decide)
  exact ⟨⟨h.1.1, h.1.2.2.2⟩, ⟨h.2.1, h.2.2.2.2⟩⟩

/-- The ERC7984 transferred handle is always initialized. -/
theorem erc7984Move_fst_isInit (bal : Nat → Nat) (src dst : Nat)
    (a : Euint64) : (erc7984Move bal src dst a).1.isInit = true := rfl

/-- The plaintext the ERC7984 transferred handle encrypts. -/
theorem erc7984Move_fst_val (bal : Nat → Nat) (src dst : Nat) (a : Euint64) :
    (erc7984Move bal src dst a).1.val
      = if a.val ≤ bal src then a.val else 0 := rfl

/-- Claim C4: when the staked balance b plus the actually transferred
amount d would exceed the 64-bit maximum, stake leaves the balance at b
and, in any state where the total dominates the balance (which
conservation guarantees for every reachable state), the total at its
prior value: neither is wrapped modulo 2^64 nor clamped to the maximum.
No error is raised: the stake path of the embedding is a total function
with no revert, mirroring the absence of any revert in _applyIncrease
and _increaseTotal. -/
theorem stake_overflow_unchanged (cfg : Config) (st : SysState)
    (staker : Nat) (amount : Euint64)
    (hover : 2^64 ≤ decryptVal (stakedBalanceOf st staker)
        + decryptVal (erc7984Move st.custody staker cfg.self amount).1)
    (hdom : decryptVal (stakedBalanceOf st staker)
        ≤ decryptVal (confidentialTotalStaked st)) :
    let res := _stake erc7984Model cfg st staker amount
    decryptVal (stakedBalanceOf res.2.1 staker)
        = decryptVal (stakedBalanceOf st staker)
    ∧ decryptVal (confidentialTotalStaked res.2.1)
        = decryptVal (confidentialTotalStaked st) := by
  have hnb : ¬ ((st.stakedBalances staker).val
      + (erc7984Move st.custody staker cfg.self amount).1.val < 2^64) := by
    have := hover
    simp only [decryptVal, stakedBalanceOf] at this
    omega
  have hnt : ¬ (st.totalStaked.val
      + (erc7984Move st.custody staker cfg.self amount).1.val < 2^64) := by
    have h1 := hover
    have h2 := hdom
    simp only [decryptVal, stakedBalanceOf, confidentialTotalStaked] at h1 h2
    omega
  simp only [_stake, _applyIncrease, _increaseTotal, erc7984Model,
    erc7984Move_fst_isInit, FHESafeMath.tryIncrease, FHE.allow, decryptVal,
    stakedBalanceOf, confidentialTotalStaked]
  rw [if_neg (show ¬ (true = false) by simp)]
  refine ⟨?_, ?_⟩
  · simp only [Function.update_same]
    exact if_neg hnb
  · simp only [apply_ite Euint64.val, ite_self]
    exact if_neg hnt

/-- Witness for C4: account 7 custodies the 64-bit maximum and stakes all
of it on top of a balance of 5; balance and total stay at 5. -/
theorem stake_overflow_unchanged_witness :
    decryptVal (stakedBalanceOf (_stake erc7984Model cfgW
        ⟨balW, ⟨true, 5, [1]⟩, Function.update (fun _ => 0) 7 (2^64 - 1), []⟩
        7 ⟨true, 2^64 - 1, [7, 1]⟩).2.1 7) = 5
    ∧ decryptVal (confidentialTotalStaked (_stake erc7984Model cfgW
        ⟨balW, ⟨true, 5, [1]⟩, Function.update (fun _ => 0) 7 (2^64 - 1), []⟩
        7 ⟨true, 2^64 - 1, [7, 1]⟩).2.1) = 5 := by
  have h := stake_overflow_unchanged cfgW
    ⟨balW, ⟨true, 5, [1]⟩, Function.update (fun _ => 0) 7 (2^64 - 1), []⟩
    7 ⟨true, 2^64 - 1, [7, 1]⟩ (by decide) (by decide)
  exact ⟨h.1.trans (by decide), h.2.trans (by decide)⟩

/-- Claim C5: the safe-increase and safe-decrease paths never branch on
the cleartext of the encrypted ok flag: the sequence of homomorphic
operation tags and call markers performed by unstake, and by stake on an
initialized amount, is identical across any two executions by the same
staker, whatever the ledger state and the encrypted operand values — in
particular across one execution where the arithmetic-safety predicate
holds and one where it fails.  Selection between the two candidate
results happens only through the homomorphic select inside the
safe-arithmetic step, which is part of the constant trace. -/
theorem trace_independent_of_secrets (cfg : Config) (s1 s2 : SysState)
    (staker : Nat) (a1 a2 : Euint64) :
    (_unstake erc7984Model cfg s1 staker a1).2.2
        = (_unstake erc7984Model cfg s2 staker a2).2.2
    ∧ (a1.isInit = true → a2.isInit = true →
      (_stake erc7984Model cfg s1 staker a1).2.2
          = (_stake erc7984Model cfg s2 staker a2).2.2) := by
  constructor
  · rfl
  · intro h1 h2
    simp [_stake, _applyIncrease, _increaseTotal, erc7984Model,
      erc7984Move_fst_isInit, h1, h2]

/-- Witness for C5: on the sample state, unstaking 3 (safe: the balance
is 5) and unstaking 9 (clamped) produce identical traces, as do the two
corresponding stakes. -/
theorem trace_independent_of_secrets_witness :
    (_unstake erc7984Model cfgW stW 7 ⟨true, 3, [7, 1]⟩).2.2
        = (_unstake erc7984Model cfgW stW 7 ⟨true, 9, [7, 1]⟩).2.2
    ∧ (_stake erc7984Model cfgW stW 7 ⟨true, 3, [7, 1]⟩).2.2
        = (_stake erc7984Model cfgW stW 7 ⟨true, 9, [7, 1]⟩).2.2 :=
  ⟨(trace_independent_of_secrets cfgW stW stW 7 ⟨true, 3, [7, 1]⟩
      ⟨true, 9, [7, 1]⟩).1,
   (trace_independent_of_secrets cfgW stW stW 7 ⟨true, 3, [7, 1]⟩
      ⟨true, 9, [7, 1]⟩).2 rfl rfl⟩

/-- Claim C6: every unstake call emits exactly one Unstaked record (the
event log grows by exactly that record); its balance field is exactly
the new encrypted balance stored for the account, and its amount field
decrypts to the appliable amount: the requested amount when the decrease
was safe, else zero.  The hypothesis that the contract custody covers
the staked balance is the specification invariant that stakedBalance
never exceeds custodied collateral; it holds in every reachable state
(conjuncts hcov and hcons of the reachable-state invariant below). -/
theorem unstake_event_shape (cfg : Config) (st : SysState)
    (staker : Nat) (amount : Euint64)
    (hcov : decryptVal (stakedBalanceOf st staker) ≤ st.custody cfg.self) :
    let res := _unstake erc7984Model cfg st staker amount
    res.2.1.events
        = EventRec.Unstaked staker res.1 (res.2.1.stakedBalances staker)
            :: st.events
    ∧ decryptVal res.1
        = (if decryptVal amount ≤ decryptVal (stakedBalanceOf st staker)
           then decryptVal amount else 0) := by
  have hcov2 : (st.stakedBalances staker).val ≤ st.custody cfg.self := by
    simpa [decryptVal, stakedBalanceOf] using hcov
  simp only [_unstake, _decreaseTotal, erc7984Model, erc7984Move,
    FHESafeMath.tryDecrease, FHE.select, FHE.asEuint64, FHE.allow,
    decryptVal, stakedBalanceOf]
  refine ⟨by simp, ?_⟩
  by_cases hc : amount.val ≤ (st.stakedBalances staker).val
  · have ht : amount.val ≤ st.custody cfg.self := le_trans hc hcov2
    simp [hc, ht]
  · simp [hc]

/-- Witness for C6: unstaking 3 from the sample balance of 5 emits one
Unstaked record carrying the stored balance handle, and the transferred
amount decrypts to 3. -/
theorem unstake_event_shape_witness :
    (_unstake erc7984Model cfgW stW 7 ⟨true, 3, [7, 1]⟩).2.1.events
        = EventRec.Unstaked 7 (_unstake erc7984Model cfgW stW 7 ⟨true, 3, [7, 1]⟩).1
            ((_unstake erc7984Model cfgW stW 7 ⟨true, 3, [7, 1]⟩).2.1.stakedBalances 7)
          :: stW.events
    ∧ decryptVal (_unstake erc7984Model cfgW stW 7 ⟨true, 3, [7, 1]⟩).1 = 3 := by
  have h := unstake_event_shape cfgW stW 7 ⟨true, 3, [7, 1]⟩ (by decide)
  exact ⟨h.1, h.2.trans (by decide)⟩

/-! Helper lemmas for the conservation development: sums over finite
address sets under pointwise updates, and the custody arithmetic of the
ERC7984 collaborator model. -/

/-- Summing an updated map: the old value at the updated point trades
against the new one. -/
theorem sum_update_add (U : Finset Nat) (f : Nat → Nat) (i v : Nat)
    (hi : i ∈ U) :
    (∑ a ∈ U, Function.update f i v a) + f i = (∑ a ∈ U, f a) + v := by
  rw [Finset.sum_update_of_mem hi, ← Finset.sum_erase_add U f hi,
    Finset.erase_eq]
  omega

/-- Summing a map changed at one member of the set: the old value at
the changed point trades against the new one. -/
theorem sum_ite_mem (K : Finset Nat) (f : Nat → Nat) (s v : Nat)
    (hs : s ∈ K) :
    (∑ x ∈ K, if x = s then v else f x) + f s = (∑ x ∈ K, f x) + v := by
  have h1 : (∑ x ∈ K, if x = s then v else f x)
      = v + ∑ x ∈ K.erase s, f x := by
    rw [← Finset.add_sum_erase K (fun x => if x = s then v else f x) hs]
    congr 1
    · simp
    · exact Finset.sum_congr rfl fun x hx => if_neg (Finset.ne_of_mem_erase hx)
  rw [h1, ← Finset.add_sum_erase K f hs]
  omega

/-- Summing a map changed outside the set. -/
theorem sum_ite_not_mem (K : Finset Nat) (f : Nat → Nat) (s v : Nat)
    (hs : s ∉ K) :
    (∑ x ∈ K, if x = s then v else f x) = ∑ x ∈ K, f x :=
  Finset.sum_congr rfl fun x hx => if_neg (fun h => hs (by rwa [← h]))

/-- Moving t units from src to dst preserves the custody sum over any
set containing both. -/
theorem sum_move (U : Finset Nat) (c : Nat → Nat) (src dst t : Nat)
    (hs : src ∈ U) (hd : dst ∈ U) (hne : dst ≠ src) (ht : t ≤ c src) :
    (∑ a ∈ U, Function.update (Function.update c src (c src - t)) dst
        (Function.update c src (c src - t) dst + t) a) = ∑ a ∈ U, c a := by
  have h1 := sum_update_add U c src (c src - t) hs
  have h2 := sum_update_add U (Function.update c src (c src - t)) dst
      (Function.update c src (c src - t) dst + t) hd
  have h3 : Function.update c src (c src - t) dst = c dst :=
    Function.update_noteq hne _ _
  rw [h3] at h2 ⊢
  omega

/-- The amount an ERC7984 transfer moves never exceeds the sender
custody balance. -/
theorem erc7984Move_val_le (bal : Nat → Nat) (src dst : Nat) (a : Euint64) :
    (erc7984Move bal src dst a).1.val ≤ bal src := by
  rw [erc7984Move_fst_val]; split <;> omega

/-- An ERC7984 transfer preserves the custody sum over any set
containing sender and recipient. -/
theorem sum_erc7984Move (U : Finset Nat) (bal : Nat → Nat) (src dst : Nat)
    (a : Euint64) (hs : src ∈ U) (hd : dst ∈ U) (hne : dst ≠ src) :
    (∑ x ∈ U, (erc7984Move bal src dst a).2 x) = ∑ x ∈ U, bal x := by
  have ht : (if a.val ≤ bal src then a.val else 0) ≤ bal src := by
    split <;> omega
  simpa [erc7984Move] using
    sum_move U bal src dst (if a.val ≤ bal src then a.val else 0) hs hd hne ht

/-- Recipient custody after an ERC7984 transfer. -/
theorem erc7984Move_custody_dst (bal : Nat → Nat) (src dst : Nat)
    (a : Euint64) (h : dst ≠ src) :
    (erc7984Move bal src dst a).2 dst
      = bal dst + (erc7984Move bal src dst a).1.val := by
  simp [erc7984Move, Function.update_same, Function.update_noteq h]

/-- Sender custody after an ERC7984 transfer. -/
theorem erc7984Move_custody_src (bal : Nat → Nat) (src dst : Nat)
    (a : Euint64) (h : dst ≠ src) :
    (erc7984Move bal src dst a).2 src
      = bal src - (erc7984Move bal src dst a).1.val := by
  simp [erc7984Move, Function.update_same,
    Function.update_noteq (fun he => h he.symm),
    Function.update_noteq h]

/-- Bystander custody after an ERC7984 transfer. -/
theorem erc7984Move_custody_other (bal : Nat → Nat) (src dst : Nat)
    (a : Euint64) (x : Nat) (hx1 : x ≠ src) (hx2 : x ≠ dst) :
    (erc7984Move bal src dst a).2 x = bal x := by
  simp [erc7984Move, Function.update_noteq hx1, Function.update_noteq hx2]

/-- The state a stake call through the ERC7984 collaborator produces:
the staker balance is safely increased by the transferred amount, the
total likewise, and custody moves from the staker to the contract. -/
theorem stake_erc_state (cfg : Config) (st : SysState) (s : Nat)
    (a : Euint64) :
    (∀ x, (((_stake erc7984Model cfg st s a).2.1.stakedBalances x)).val
        = if x = s
          then (if (st.stakedBalances s).val
                  + (erc7984Move st.custody s cfg.self a).1.val < 2^64
                then (st.stakedBalances s).val
                  + (erc7984Move st.custody s cfg.self a).1.val
                else (st.stakedBalances s).val)
          else (st.stakedBalances x).val)
    ∧ (_stake erc7984Model cfg st s a).2.1.totalStaked.val
        = (if st.totalStaked.val
              + (erc7984Move st.custody s cfg.self a).1.val < 2^64
           then st.totalStaked.val
              + (erc7984Move st.custody s cfg.self a).1.val
           else st.totalStaked.val)
    ∧ (_stake erc7984Model cfg st s a).2.1.custody
        = (erc7984Move st.custody s cfg.self a).2 := by
  simp only [_stake, _applyIncrease, _increaseTotal, erc7984Model,
    erc7984Move_fst_isInit, FHESafeMath.tryIncrease, FHE.allow]
  rw [if_neg (show ¬ (true = false) by simp)]
  refine ⟨fun x => ?_, ?_, rfl⟩
  · by_cases hx : x = s
    · subst hx
      simp [Function.update_same]
    · simp [Function.update_noteq hx, hx]
  · simp only [apply_ite Euint64.val, ite_self]

/-- The state an unstake call through the ERC7984 collaborator produces:
the staker balance drops by the appliable amount, the total likewise,
and custody moves from the contract back to the staker. -/
theorem unstake_erc_state (cfg : Config) (st : SysState) (s : Nat)
    (a : Euint64) :
    (∀ x, (((_unstake erc7984Model cfg st s a).2.1.stakedBalances x)).val
        = if x = s
          then (st.stakedBalances s).val
            - (if a.val ≤ (st.stakedBalances s).val then a.val else 0)
          else (st.stakedBalances x).val)
    ∧ (_unstake erc7984Model cfg st s a).2.1.totalStaked.val
        = (if (if a.val ≤ (st.stakedBalances s).val then a.val else 0)
              ≤ st.totalStaked.val
           then st.totalStaked.val
              - (if a.val ≤ (st.stakedBalances s).val then a.val else 0)
           else st.totalStaked.val)
    ∧ (_unstake erc7984Model cfg st s a).2.1.custody
        = (erc7984Move st.custody cfg.self s
            ⟨true, if a.val ≤ (st.stakedBalances s).val then a.val else 0,
              []⟩).2 := by
  simp only [_unstake, _decreaseTotal, erc7984Model,
    FHESafeMath.tryDecrease, FHE.select, FHE.asEuint64, FHE.allow,
    Nat.zero_mod, decide_eq_true_eq]
  refine ⟨fun x => ?_, ?_, trivial⟩
  · by_cases hx : x = s
    · subst hx
      by_cases ha : a.val ≤ (st.stakedBalances x).val <;>
        simp [Function.update_same, ha]
    · simp [Function.update_noteq hx, hx]
  · simp only [apply_ite Euint64.val, ite_self]

/-- Two distinct members bound the sum from below. -/
theorem pair_le_sum (U : Finset Nat) (f : Nat → Nat) (i j : Nat)
    (hi : i ∈ U) (hj : j ∈ U) (hne : i ≠ j) :
    f i + f j ≤ ∑ a ∈ U, f a := by
  have hsub : ({i, j} : Finset Nat) ⊆ U := by
    intro x hx
    rcases Finset.mem_insert.mp hx with h | h
    · exact h ▸ hi
    · exact (Finset.mem_singleton.mp h) ▸ hj
  calc f i + f j = ∑ a ∈ ({i, j} : Finset Nat), f a := (Finset.sum_pair hne).symm
    _ ≤ ∑ a ∈ U, f a := Finset.sum_le_sum_of_subset hsub

/-- Summing an updated custody map over a set avoiding the updated
point. -/
theorem sum_update_not_mem (K : Finset Nat) (f : Nat → Nat) (s v : Nat)
    (hs : s ∉ K) :
    (∑ a ∈ K, Function.update f s v a) = ∑ a ∈ K, f a :=
  Finset.sum_congr rfl fun a ha =>
    Function.update_noteq (fun he => hs (by rwa [← he])) v f

/-- The reachable-state invariant of the conservation development, over
a fixed finite address universe U and the set K of accounts that staked
so far: K lies in U and excludes the contract address; accounts outside
K hold a zero balance; the total is the sum of the balances over K; the
contract custody covers the total; custody is supported inside U and
its sum fits in 64 bits. -/
structure Inv (cfg : Config) (U K : Finset Nat) (st : SysState) : Prop where
  hKU : K ⊆ U
  hselfU : cfg.self ∈ U
  hselfK : cfg.self ∉ K
  hbal0 : ∀ x, x ∉ K → (st.stakedBalances x).val = 0
  hcons : st.totalStaked.val = ∑ x ∈ K, (st.stakedBalances x).val
  hcov : st.totalStaked.val ≤ st.custody cfg.self
  hsupp : ∀ x, x ∉ U → st.custody x = 0
  hsum : (∑ x ∈ U, st.custody x) < 2^64

/-- A stake call by an account other than the contract preserves the
invariant, enlarging the staker set by the caller.  The custody-sum
bound is what rules out overflow of both the balance and the total, so
both are increased by exactly the transferred amount. -/
theorem stake_step (cfg : Config) (U K : Finset Nat) (st : SysState)
    (s n : Nat) (hInv : Inv cfg U K st) (hsU : s ∈ U) (hss : s ≠ cfg.self) :
    Inv cfg U (insert s K) (execCall erc7984Model cfg st (Call.stakeC s n)) := by
  obtain ⟨hKU, hselfU, hselfK, hbal0, hcons, hcov, hsupp, hsum⟩ := hInv
  obtain ⟨hbal, htot, hcust⟩ := stake_erc_state cfg st s (FHE.fromExternal n)
  have hselfs : cfg.self ≠ s := fun h => hss h.symm
  have hts : (erc7984Move st.custody s cfg.self (FHE.fromExternal n)).1.val
      ≤ st.custody s := erc7984Move_val_le st.custody s cfg.self _
  have hbT : (st.stakedBalances s).val ≤ st.totalStaked.val := by
    by_cases hsK : s ∈ K
    · rw [hcons]
      exact Finset.single_le_sum
        (fun i _ => Nat.zero_le ((st.stakedBalances i).val)) hsK
    · rw [hbal0 s hsK]
      exact Nat.zero_le _
  have hpair : st.custody cfg.self + st.custody s ≤ ∑ x ∈ U, st.custody x :=
    pair_le_sum U st.custody cfg.self s hselfU hsU hselfs
  have hokT : st.totalStaked.val
      + (erc7984Move st.custody s cfg.self (FHE.fromExternal n)).1.val
        < 2^64 := by omega
  have hokb : (st.stakedBalances s).val
      + (erc7984Move st.custody s cfg.self (FHE.fromExternal n)).1.val
        < 2^64 := by omega
  show Inv cfg U (insert s K)
    ((_stake erc7984Model cfg st s (FHE.fromExternal n)).2.1)
  refine ⟨Finset.insert_subset hsU hKU, hselfU, ?_, ?_, ?_, ?_, ?_, ?_⟩
  · intro h
    rcases Finset.mem_insert.mp h with h | h
    · exact hselfs h
    · exact hselfK h
  · intro x hx
    have hxs : x ≠ s := fun h => hx (by rw [h]; exact Finset.mem_insert_self s K)
    have hxK : x ∉ K := fun h => hx (Finset.mem_insert_of_mem h)
    rw [hbal x, if_neg hxs]
    exact hbal0 x hxK
  · rw [htot, if_pos hokT, Finset.sum_congr rfl fun x _ => hbal x]
    simp only [if_pos hokb]
    by_cases hsK : s ∈ K
    · rw [Finset.insert_eq_self.mpr hsK]
      have hup := sum_ite_mem K (fun y => (st.stakedBalances y).val) s
        ((st.stakedBalances s).val
          + (erc7984Move st.custody s cfg.self (FHE.fromExternal n)).1.val) hsK
      beta_reduce at hup
      omega
    · rw [Finset.sum_insert hsK]
      have hup := sum_ite_not_mem K (fun y => (st.stakedBalances y).val) s
        ((st.stakedBalances s).val
          + (erc7984Move st.custody s cfg.self (FHE.fromExternal n)).1.val) hsK
      beta_reduce at hup
      have hb0 := hbal0 s hsK
      simp only [eq_self_iff_true, if_true]
      omega
  · rw [htot, if_pos hokT, hcust,
      erc7984Move_custody_dst st.custody s cfg.self _ hselfs]
    omega
  · intro x hx
    rw [hcust, erc7984Move_custody_other st.custody s cfg.self _ x
      (fun h => hx (by rw [h]; exact hsU))
      (fun h => hx (by rw [h]; exact hselfU))]
    exact hsupp x hx
  · rw [hcust, Finset.sum_congr rfl fun x _ => rfl]
    rw [sum_erc7984Move U st.custody s cfg.self _ hsU hselfU hselfs]
    exact hsum

/-- An unstake call by an account other than the contract preserves the
invariant with the same staker set: balance, total and contract custody
all drop by exactly the appliable amount. -/
theorem unstake_step (cfg : Config) (U K : Finset Nat) (st : SysState)
    (s n : Nat) (hInv : Inv cfg U K st) (hsU : s ∈ U) (hss : s ≠ cfg.self) :
    Inv cfg U K (execCall erc7984Model cfg st (Call.unstakeC s n)) := by
  obtain ⟨hKU, hselfU, hselfK, hbal0, hcons, hcov, hsupp, hsum⟩ := hInv
  obtain ⟨hbal, htot, hcust⟩ := unstake_erc_state cfg st s (FHE.fromExternal n)
  have hselfs : cfg.self ≠ s := fun h => hss h.symm
  have hap_le : (if (FHE.fromExternal n).val ≤ (st.stakedBalances s).val
      then (FHE.fromExternal n).val else 0) ≤ (st.stakedBalances s).val := by
    split <;> omega
  have hbT : (st.stakedBalances s).val ≤ st.totalStaked.val := by
    by_cases hsK : s ∈ K
    · rw [hcons]
      exact Finset.single_le_sum
        (fun i _ => Nat.zero_le ((st.stakedBalances i).val)) hsK
    · rw [hbal0 s hsK]
      exact Nat.zero_le _
  have hapT : (if (FHE.fromExternal n).val ≤ (st.stakedBalances s).val
      then (FHE.fromExternal n).val else 0) ≤ st.totalStaked.val :=
    le_trans hap_le hbT
  have ht2 : (erc7984Move st.custody cfg.self s
      ⟨true, if (FHE.fromExternal n).val ≤ (st.stakedBalances s).val
        then (FHE.fromExternal n).val else 0, []⟩).1.val
      = (if (FHE.fromExternal n).val ≤ (st.stakedBalances s).val
        then (FHE.fromExternal n).val else 0) := by
    rw [erc7984Move_fst_val]
    exact if_pos (le_trans hap_le (le_trans hbT hcov))
  show Inv cfg U K ((_unstake erc7984Model cfg st s (FHE.fromExternal n)).2.1)
  refine ⟨hKU, hselfU, hselfK, ?_, ?_, ?_, ?_, ?_⟩
  · intro x hx
    by_cases hxs : x = s
    · subst hxs
      rw [hbal x, if_pos rfl, hbal0 x hx]
      omega
    · rw [hbal x, if_neg hxs]
      exact hbal0 x hx
  · rw [htot, if_pos hapT, Finset.sum_congr rfl fun x _ => hbal x]
    by_cases hsK : s ∈ K
    · have hup := sum_ite_mem K (fun y => (st.stakedBalances y).val) s
        ((st.stakedBalances s).val
          - (if (FHE.fromExternal n).val ≤ (st.stakedBalances s).val
             then (FHE.fromExternal n).val else 0)) hsK
      beta_reduce at hup
      omega
    · have hup := sum_ite_not_mem K (fun y => (st.stakedBalances y).val) s
        ((st.stakedBalances s).val
          - (if (FHE.fromExternal n).val ≤ (st.stakedBalances s).val
             then (FHE.fromExternal n).val else 0)) hsK
      beta_reduce at hup
      have hb0 := hbal0 s hsK
      omega
  · rw [htot, if_pos hapT, hcust,
      erc7984Move_custody_src st.custody cfg.self s _ hss, ht2]
    omega
  · intro x hx
    rw [hcust, erc7984Move_custody_other st.custody cfg.self s _ x
      (fun h => hx (by rw [h]; exact hselfU))
      (fun h => hx (by rw [h]; exact hsU))]
    exact hsupp x hx
  · rw [hcust]
    rw [sum_erc7984Move U st.custody cfg.self s _ hselfU hsU hss]
    exact hsum

/-- A caller of a call in the sequence belongs to the caller set. -/
theorem caller_mem_callersOf :
    ∀ (calls : List Call) (c : Call), c ∈ calls →
      Call.caller c ∈ callersOf calls
  | c' :: cs, c, h => by
    rcases List.mem_cons.mp h with h | h
    · rw [h]
      exact Finset.mem_insert_self _ _
    · exact Finset.mem_insert_of_mem (caller_mem_callersOf cs c h)

/-- Executing any call sequence whose callers live in U and are not the
contract preserves the invariant, growing the staker set by the stake
callers of the sequence. -/
theorem exec_preserves_inv (cfg : Config) (U : Finset Nat) :
    ∀ (calls : List Call) (st : SysState) (K : Finset Nat),
      Inv cfg U K st →
      (∀ c ∈ calls, Call.caller c ∈ U ∧ Call.caller c ≠ cfg.self) →
      Inv cfg U (K ∪ stakersOf calls) (execCalls erc7984Model cfg st calls) := by
  intro calls
  induction calls with
  | nil =>
    intro st K hInv _
    simpa [stakersOf, execCalls] using hInv
  | cons c cs ih =>
    intro st K hInv hc
    cases c with
    | stakeC s n =>
      have h1 := hc (Call.stakeC s n) (List.mem_cons_self _ _)
      have hstep := stake_step cfg U K st s n hInv h1.1 h1.2
      have hrec := ih (execCall erc7984Model cfg st (Call.stakeC s n))
        (insert s K) hstep (fun d hd => hc d (List.mem_cons_of_mem _ hd))
      rw [Finset.insert_union] at hrec
      simpa [stakersOf, execCalls, Finset.union_insert] using hrec
    | unstakeC s n =>
      have h1 := hc (Call.unstakeC s n) (List.mem_cons_self _ _)
      have hstep := unstake_step cfg U K st s n hInv h1.1 h1.2
      have hrec := ih (execCall erc7984Model cfg st (Call.unstakeC s n)) K
        hstep (fun d hd => hc d (List.mem_cons_of_mem _ hd))
      simpa [stakersOf, execCalls] using hrec

/-- Claim C1: for every finite sequence of stake and unstake calls from
the freshly constructed ledger, the decrypted total equals the sum of
the decrypted balances over all accounts that ever staked, after every
call of the sequence (the statement quantifies over an arbitrary prefix,
since calls is arbitrary).  The hypotheses say the custody collaborator
starts as a well-formed confidential token: finitely many holders and a
64-bit total supply (ERC7984 maintains its supply as an euint64), and
that no call is made by the ledger contract itself (the contract has no
code path calling its own entry points). -/
theorem conservation_totals (cfg : Config) (custody0 : Nat → Nat)
    (S0 : Finset Nat) (calls : List Call)
    (hsupp0 : ∀ x, x ∉ S0 → custody0 x = 0)
    (hsum0 : (∑ x ∈ S0, custody0 x) < 2^64)
    (hcallers : ∀ c ∈ calls, Call.caller c ≠ cfg.self) :
    decryptVal (confidentialTotalStaked
        (execCalls erc7984Model cfg (initState custody0) calls))
      = ∑ x ∈ stakersOf calls,
          decryptVal (stakedBalanceOf
            (execCalls erc7984Model cfg (initState custody0) calls) x) := by
  have hU : S0 ⊆ insert cfg.self (S0 ∪ callersOf calls) := fun x hx =>
    Finset.mem_insert_of_mem (Finset.mem_union_left _ hx)
  have hInv0 : Inv cfg (insert cfg.self (S0 ∪ callersOf calls)) ∅
      (initState custody0) := by
    refine ⟨Finset.empty_subset _, Finset.mem_insert_self _ _,
      Finset.not_mem_empty _, fun x _ => rfl, by simp [initState, Euint64.uninit],
      Nat.zero_le _, fun x hx => hsupp0 x (fun hx0 => hx (hU hx0)), ?_⟩
    show (∑ x ∈ insert cfg.self (S0 ∪ callersOf calls), custody0 x) < 2^64
    rw [← Finset.sum_subset hU (fun x _ hx0 => hsupp0 x hx0)]
    exact hsum0
  have hc : ∀ c ∈ calls,
      Call.caller c ∈ insert cfg.self (S0 ∪ callersOf calls)
      ∧ Call.caller c ≠ cfg.self := fun c hc0 =>
    ⟨Finset.mem_insert_of_mem
      (Finset.mem_union_right _ (caller_mem_callersOf calls c hc0)),
     hcallers c hc0⟩
  have hfin := exec_preserves_inv cfg (insert cfg.self (S0 ∪ callersOf calls))
      calls (initState custody0) ∅ hInv0 hc
  have hres := hfin.hcons
  rw [Finset.empty_union] at hres
  simpa [decryptVal, confidentialTotalStaked, stakedBalanceOf] using hres

/-- Witness for C1: account 7 starts with 10 custody units, stakes 4 and
unstakes 1; the decrypted total equals the sum of balances over the
accounts that staked. -/
theorem conservation_totals_witness :
    decryptVal (confidentialTotalStaked (execCalls erc7984Model cfgW
        (initState (Function.update (fun _ => 0) 7 10))
        [Call.stakeC 7 4, Call.unstakeC 7 1]))
      = ∑ x ∈ stakersOf [Call.stakeC 7 4, Call.unstakeC 7 1],
          decryptVal (stakedBalanceOf (execCalls erc7984Model cfgW
            (initState (Function.update (fun _ => 0) 7 10))
            [Call.stakeC 7 4, Call.unstakeC 7 1]) x) :=
  conservation_totals cfgW (Function.update (fun _ => 0) 7 10) {7}
    [Call.stakeC 7 4, Call.unstakeC 7 1]
    (fun x hx => Function.update_noteq (by simpa using hx) 10 (fun _ => 0))
    (by decide) (by decide)

end METHStaking
